import Mathlib

set_option maxRecDepth 100000

/-!
Shallow embedding of the core of `madebysergio/set_organizer`:
the two-tier image-resolution cache, the quota-enforcing storage adapter
(`src/dst-cmd-manager/components/storage-adapter.ts`), and the entity
synchronizer of `src/dst-command-manager.tsx` (tag save/rename cascade and
default seeding).  Stateful JS is modelled by explicit state passing;
`localStorage` and the JS `Map` are modelled as insertion-ordered
association lists; machine integers are `Nat`/`Int`; fallible reads return
`Option`.
-/

/-! ## JS string primitives

`String.prototype.trim`, `.toLowerCase` and `.startsWith`, modelled over
the character list so that they evaluate by kernel reduction
(`Char.toLower` is the ASCII case map; JS `toLowerCase` agrees on ASCII,
which is all the repository's names use). -/

/-- The `String.prototype.trim`: strip leading and trailing whitespace. -/
def jsTrim (s : String) : String :=
  String.mk (((s.data.dropWhile Char.isWhitespace).reverse.dropWhile
    Char.isWhitespace).reverse)

/-- The `String.prototype.toLowerCase` (ASCII). -/
def jsToLower (s : String) : String :=
  String.mk (s.data.map Char.toLower)

/-- The `String.prototype.startsWith`. -/
def jsStartsWith (s pre : String) : Bool :=
  s.data.take pre.data.length == pre.data

/-! ## Association-list primitives (JS `Map` / `localStorage` semantics) -/

/-- First binding of `k`, if any (JS `Map.get` / `localStorage.getItem`). -/
def assocLookup {α : Type} (l : List (String × α)) (k : String) : Option α :=
  match l with
  | [] => none
  | (k', v) :: t => if k' = k then some v else assocLookup t k

/-- Replace the binding of `k` in place, else append — exactly the JS `Map.set`
and `localStorage.setItem` behaviour (re-setting keeps insertion order). -/
def assocSet {α : Type} (k : String) (v : α) : List (String × α) → List (String × α)
  | [] => [(k, v)]
  | (k', v') :: t => if k' = k then (k, v) :: t else (k', v') :: assocSet k v t

/-- Remove every binding of `k` (JS `Map.delete` / `localStorage.removeItem`;
keys are unique in the underlying containers). -/
def assocErase {α : Type} (k : String) : List (String × α) → List (String × α)
  | [] => []
  | (k', v') :: t => if k' = k then assocErase k t else (k', v') :: assocErase k t

theorem assocLookup_assocSet_self {α : Type} (k : String) (v : α) (l : List (String × α)) :
    assocLookup (assocSet k v l) k = some v := by
  induction l with
  | nil => simp [assocSet, assocLookup]
  | cons p t ih =>
    obtain ⟨k', v'⟩ := p
    by_cases h : k' = k
    · simp [assocSet, h, assocLookup]
    · simp [assocSet, h, assocLookup, ih]

theorem assocLookup_assocSet_ne {α : Type} (k k₀ : String) (v : α) (l : List (String × α))
    (h : k ≠ k₀) : assocLookup (assocSet k v l) k₀ = assocLookup l k₀ := by
  induction l with
  | nil => simp [assocSet, assocLookup, h]
  | cons p t ih =>
    obtain ⟨k', v'⟩ := p
    by_cases hk : k' = k
    · subst hk
      simp [assocSet, assocLookup, h]
    · simp [assocSet, hk, assocLookup, ih]

theorem assocLookup_assocErase_self {α : Type} (k : String) (l : List (String × α)) :
    assocLookup (assocErase k l) k = none := by
  induction l with
  | nil => simp [assocErase, assocLookup]
  | cons p t ih =>
    obtain ⟨k', v'⟩ := p
    by_cases h : k' = k
    · simpa [assocErase, h] using ih
    · simp [assocErase, h, assocLookup, ih]

theorem assocLookup_assocErase_ne {α : Type} (k k₀ : String) (l : List (String × α))
    (h : k ≠ k₀) : assocLookup (assocErase k l) k₀ = assocLookup l k₀ := by
  induction l with
  | nil => simp [assocErase, assocLookup]
  | cons p t ih =>
    obtain ⟨k', v'⟩ := p
    by_cases hk : k' = k
    · subst hk
      simp [assocErase, assocLookup, h, ih]
    · by_cases hk0 : k' = k₀
      · simp [assocErase, hk, assocLookup, hk0, Ne.symm h]
      · simp [assocErase, hk, assocLookup, hk0, ih]

theorem length_assocSet_le {α : Type} (k : String) (v : α) (l : List (String × α)) :
    (assocSet k v l).length ≤ l.length + 1 := by
  induction l with
  | nil => simp [assocSet]
  | cons p t ih =>
    obtain ⟨k', v'⟩ := p
    by_cases h : k' = k
    · simp [assocSet, h]
    · simp only [assocSet, h, if_false, List.length_cons]
      omega

/-! ## Memory cache (`ImageCacheManager`, dst-command-manager.tsx lines 29–51)

`memoryCache` is a JS `Map<string,string>`; `maxCacheSize = 100`.
`get` coalesces falsy values (`|| null`), so an empty-string value reads as
absent.  `set` evicts `keys().next().value` when `size >= max`, but only
when that first key is truthy (`if (firstKey)`), so an empty-string oldest
key is never evicted. -/

def maxCacheSize : Nat := 100

/-- The in-memory cache state: insertion-ordered key/value pairs. -/
abbrev MCache := List (String × String)

/-- The `ImageCacheManager.get`: `this.memoryCache.get(key) || null`. -/
def mgrGet (c : MCache) (k : String) : Option String :=
  match assocLookup c k with
  | some v => if v = "" then none else some v
  | none => none

/-- The eviction block of `ImageCacheManager.set` (lines 39–44): when
`size >= maxCacheSize`, delete `keys().next().value` — but only when that
first key is truthy (`if (firstKey)`). -/
def mgrEvict : MCache → MCache
  | [] => []
  | (fk, w) :: t =>
    if maxCacheSize ≤ ((fk, w) :: t).length then
      if fk = "" then (fk, w) :: t else assocErase fk ((fk, w) :: t)
    else (fk, w) :: t

/-- The `ImageCacheManager.set`: the eviction block, then `Map.set`. -/
def mgrSet (c : MCache) (k v : String) : MCache :=
  assocSet k v (mgrEvict c)

/-- The `ImageCacheManager.clear`. -/
def mgrClear (_ : MCache) : MCache := []

/-- A sequence of `set` calls applied in order to the memory cache. -/
def applyMgrSets (ops : List (String × String)) (c : MCache) : MCache :=
  ops.foldl (fun c p => mgrSet c p.1 p.2) c

/-- One public mutation of the memory cache: `set` or `clear`. -/
inductive COp : Type
  | cset (k v : String)
  | cclear

/-- Apply a sequence of cache mutations in order. -/
def applyCOps (ops : List COp) (c : MCache) : MCache :=
  ops.foldl (fun c op =>
    match op with
    | .cset k v => mgrSet c k v
    | .cclear => mgrClear c) c

theorem assocLookup_mgrSet_self (c : MCache) (k v : String) :
    assocLookup (mgrSet c k v) k = some v := by
  unfold mgrSet
  exact assocLookup_assocSet_self k v _

theorem mgrGet_mgrSet_self (c : MCache) (k v : String) (hv : v ≠ "") :
    mgrGet (mgrSet c k v) k = some v := by
  unfold mgrGet
  rw [assocLookup_mgrSet_self]
  simp [hv]

/-! ## Durable cache (dst-command-manager.tsx lines 24–27, 68–87, 114–124)

`localStorage` entries under `dst_img_<cacheKey>` hold a serialized
`CacheEntry {url, timestamp}`; the store is modelled with parsed entries
(JSON round-trips these records).  `CACHE_EXPIRY_DAYS = 7`. -/

/-- The `CacheEntry` of the durable image cache. -/
structure CacheEntry where
  url : String
  timestamp : Int
  deriving DecidableEq

/-- The durable (localStorage) image-cache state. -/
abbrev DStore := List (String × CacheEntry)

/-- The `CACHE_EXPIRY_DAYS * 24 * 60 * 60 * 1000` milliseconds. -/
def expiryMs : Int := 7 * 24 * 60 * 60 * 1000

/-- The durable-cache write (lines 114–124): store `{url, timestamp: now}`
under the given key. -/
def durableWrite (now : Int) (k url : String) (s : DStore) : DStore :=
  assocSet k ⟨url, now⟩ s

/-- The durable-cache read step (lines 68–87): a present entry with
`age < expiry` is returned; an expired entry is removed and the read
misses; an absent key misses. -/
def durableRead (now : Int) (k : String) (s : DStore) : Option String × DStore :=
  match assocLookup s k with
  | none => (none, s)
  | some e => if now - e.timestamp < expiryMs then (some e.url, s) else (none, assocErase k s)

/-! ## Resource resolver (`fetchDSTImage`, dst-command-manager.tsx lines 55–136) -/

/-- Outcome of one remote candidate fetch, flattened from
`fetch` + `response.ok` + JSON field chasing:
`netErr` = the `fetch`/`json()` threw; `notOk` = `!response.ok`;
`ok f` = an OK response whose `data.query?.pages → first page →
imageinfo[0]?.url` chain yields `f` (`none` when any level is absent). -/
inductive RemoteResp : Type
  | netErr
  | notOk
  | ok (urlField : Option String)

/-- Result of one `fetchDSTImage` run: the returned value, the resulting
cache state, and the ordered list of remote candidate filenames actually
fetched (the remote-call trace). -/
structure RRes where
  val : Option String
  mem : MCache
  dur : DStore
  trace : List String
  deriving DecidableEq

/-- The fixed candidate list (lines 89–94). -/
def patterns (itemName : String) : List String :=
  [itemName ++ "_Build.png", itemName ++ ".png", itemName ++ "_Portrait.png",
   itemName ++ "_Icon.png"]

/-- The per-candidate acceptance test of the loop body (lines 101–110): a
candidate yields a value exactly when the response is OK and the chased
`url` field is truthy (`if (page?.imageinfo?.[0]?.url)`); every other
outcome — thrown fetch, `!response.ok`, absent field, empty-string
field — falls through. -/
def respSuccess : RemoteResp → Option String
  | .ok (some url) => if url = "" then none else some url
  | _ => none

/-- The candidate loop (lines 96–133): each iteration issues one remote
call; a success writes both cache tiers and returns; every failure falls
through to the next candidate. -/
def tryPatterns (oracle : String → RemoteResp) (now : Int) (ck : String) :
    List String → MCache → DStore → RRes
  | [], mem, dur => ⟨none, mem, dur, []⟩
  | p :: ps, mem, dur =>
    match respSuccess (oracle p) with
    | some url =>
      ⟨some url, mgrSet mem ck url, durableWrite now ("dst_img_" ++ ck) url dur, [p]⟩
    | none =>
      let r := tryPatterns oracle now ck ps mem dur
      ⟨r.val, r.mem, r.dur, p :: r.trace⟩

/-- The `fetchDSTImage(itemName)`: blank-name guard, memory-cache probe,
durable-cache probe (with lazy expiry), then the remote candidate loop.
The remote service and the clock are passed explicitly. -/
def fetchDSTImage (oracle : String → RemoteResp) (now : Int) (itemName : String)
    (mem : MCache) (dur : DStore) : RRes :=
  if jsTrim itemName = "" then ⟨none, mem, dur, []⟩
  else
    match mgrGet mem (jsTrim (jsToLower itemName)) with
    | some v => ⟨some v, mem, dur, []⟩
    | none =>
      match durableRead now ("dst_img_" ++ jsTrim (jsToLower itemName)) dur with
      | (some url, dur2) => ⟨some url, mgrSet mem (jsTrim (jsToLower itemName)) url, dur2, []⟩
      | (none, dur2) => tryPatterns oracle now (jsTrim (jsToLower itemName)) (patterns itemName) mem dur2

/-- Index and value of the first candidate the loop would accept (an OK
response with a truthy `url` field); a statement-side device for C4. -/
def firstFound (oracle : String → RemoteResp) : List String → Option (Nat × String)
  | [] => none
  | p :: ps =>
    match respSuccess (oracle p) with
    | some url => some (0, url)
    | none => (firstFound oracle ps).map (fun x => (x.1 + 1, x.2))

/-! ## Storage adapter (`storage-adapter.ts` lines 83–103)

`set(key, value)`: an empty value makes the guard throw, which the
surrounding `try` converts to `false`; a value whose UTF-8 byte size
(`new Blob([value]).size`) exceeds `4800000` returns `false` before any
write; otherwise `localStorage.setItem(prefix + key, value)` stores it and
`set` returns `true`.  The adapter never throws: every failure path
returns `false` with the store untouched. -/

/-- The raw string store behind the adapter (`localStorage`). -/
abbrev SStore := List (String × String)

/-- The `StorageAdapter.set` (lines 83–103). -/
def adapterSet (key value : String) (store : SStore) : Bool × SStore :=
  if value = "" then (false, store)
  else if 4800000 < value.utf8ByteSize then (false, store)
  else (true, assocSet ("dst_app_" ++ key) value store)

/-! ## Entities (dst-command-manager.tsx lines 142–203) -/

/-- A stored console command (interface `Command`). -/
structure Command where
  id : Nat
  name : String
  command : String
  image : String
  tags : List String
  category : Option String
  favorite : Bool
  deriving DecidableEq

/-- A tag record (interface `Tag`). -/
structure Tag where
  id : Nat
  name : String
  color : String
  deriving DecidableEq

/-- A parsed entity record as held by the entity store (`JSON.parse` of a
stored record; JSON round-trips these flat records, so the store is
modelled with parsed values and `JSON.stringify` is used for sizes). -/
inductive Entity : Type
  | ecmd (c : Command)
  | etag (t : Tag)
  deriving DecidableEq

/-! JSON serialization (`JSON.stringify`) of entity records, used by the
adapter's quota check: string escaping follows ECMA-262 `QuoteJSONString`. -/

/-- One lowercase hex digit. -/
def hexDigit (n : Nat) : String :=
  if n < 10 then toString n
  else if n = 10 then ("a")
  else if n = 11 then ("b")
  else if n = 12 then ("c")
  else if n = 13 then ("d")
  else if n = 14 then ("e")
  else ("f")

/-- The `QuoteJSONString` escaping of one character. -/
def jescChar (ch : Char) : String :=
  if ch = '"' then ("\\\"")
  else if ch = '\\' then ("\\\\")
  else if ch = '\x08' then ("\\b")
  else if ch = '\x0c' then ("\\f")
  else if ch = '\n' then ("\\n")
  else if ch = '\x0d' then ("\\r")
  else if ch = '\t' then ("\\t")
  else if ch.toNat < 32 then ("\\u00") ++ hexDigit (ch.toNat / 16) ++ hexDigit (ch.toNat % 16)
  else String.singleton ch

/-- A JSON string literal. -/
def jstr (s : String) : String :=
  "\"" ++ String.join (s.data.map jescChar) ++ "\""

/-- The `JSON.stringify` of a `Tag`. -/
def encodeTag (t : Tag) : String :=
  "\x7b\"id\":" ++ toString t.id ++ ",\"name\":" ++ jstr t.name ++
    ",\"color\":" ++ jstr t.color ++ "\x7d"

/-- The `JSON.stringify` of a string array. -/
def encodeStrList (ts : List String) : String :=
  "[" ++ String.intercalate (",") (ts.map jstr) ++ "]"

/-- The `JSON.stringify` of a `Command` (property insertion order as in
`handleSave`; key order does not affect the byte size). -/
def encodeCommand (c : Command) : String :=
  "\x7b\"id\":" ++ toString c.id ++ ",\"name\":" ++ jstr c.name ++
    ",\"command\":" ++ jstr c.command ++ ",\"image\":" ++ jstr c.image ++
    ",\"tags\":" ++ encodeStrList c.tags ++
    ",\"category\":" ++ (match c.category with | none => "null" | some s => jstr s) ++
    ",\"favorite\":" ++ (if c.favorite then ("true") else ("false")) ++ "\x7d"

/-- The `JSON.stringify` of an entity record. -/
def encodeEntity : Entity → String
  | .ecmd c => encodeCommand c
  | .etag t => encodeTag t

/-- The entity store: `localStorage` as seen through the adapter, holding
parsed entity records under full (adapter-prefixed) keys. -/
abbrev EStore := List (String × Entity)

/-- The `StorageAdapter.set` over an entity record: `JSON.stringify` it, reject
when over quota, else store under `dst_app_ + key`.  A stringified record
is never the empty string, so only the quota guard can reject. -/
def estoreSet (key : String) (e : Entity) (s : EStore) : Bool × EStore :=
  if 4800000 < (encodeEntity e).utf8ByteSize then (false, s)
  else (true, assocSet ("dst_app_" ++ key) e s)

/-- The `StorageAdapter.get` over the entity store. -/
def estoreGet (key : String) (s : EStore) : Option Entity :=
  assocLookup s ("dst_app_" ++ key)

/-- The `StorageAdapter.list`: keys starting with `dst_app_ + pre`, returned
with the adapter prefix (8 characters) stripped. -/
def estoreList (pre : String) (s : EStore) : List String :=
  ((s.map Prod.fst).filter (fun k => jsStartsWith k ("dst_app_" ++ pre))).map
    (fun k => k.drop 8)

/-! ## Tag save / rename (`handleSaveTag`, dst-command-manager.tsx lines 644–688) -/

/-- The two validation rejections of `handleSaveTag` (distinct toasts:
`'Tag name is required!'` and `'A tag with this name already exists!'`). -/
inductive SaveTagErr : Type
  | required
  | conflict
  deriving DecidableEq

/-- Result of one `handleSaveTag` run: the rejection (if any), the
resulting tag list, command list and store, and the ordered trace of
`storage.set` calls issued. -/
structure SaveTagRes where
  err : Option SaveTagErr
  tags : List Tag
  commands : List Command
  store : EStore
  writes : List (String × Entity)
  deriving DecidableEq

/-- Rewrite a command's tag set, replacing every occurrence of the old
name (`cmd.tags.map((t) => (t === oldTag.name ? trimmedName : t))`). -/
def substTag (oldN newN : String) (c : Command) : Command :=
  { c with tags := c.tags.map (fun t => if t = oldN then newN else t) }

/-- One iteration of the rename cascade (lines 669–676): a command
referencing the old name is rewritten through the adapter and replaced
(by id) in the command list; others are untouched. -/
def renameStep (oldN newN : String) (acc : EStore × List Command × List (String × Entity))
    (cmd : Command) : EStore × List Command × List (String × Entity) :=
  if cmd.tags.contains oldN then
    let uc := substTag oldN newN cmd
    ((estoreSet ("dst:" ++ toString cmd.id) (.ecmd uc) acc.1).2,
     acc.2.1.map (fun c => if c.id = cmd.id then uc else c),
     acc.2.2 ++ [("dst:" ++ toString cmd.id, Entity.ecmd uc)])
  else acc

/-- The `handleSaveTag(id)` (lines 644–688): required-name check, then
case-insensitive uniqueness against all other tags, then write the updated
tag and run the rename cascade over every command when the name changed. -/
def handleSaveTag (tags : List Tag) (commands : List Command)
    (editTagName editTagColor : String) (id : Nat) (store : EStore) : SaveTagRes :=
  let trimmedName := jsTrim editTagName
  if trimmedName = "" then ⟨some .required, tags, commands, store, []⟩
  else if tags.any (fun t => (t.id != id) && (jsToLower t.name == jsToLower trimmedName)) then
    ⟨some .conflict, tags, commands, store, []⟩
  else
    let oldTag := tags.find? (fun t => t.id == id)
    let updatedTag : Tag := ⟨id, trimmedName, editTagColor⟩
    let tagKey := "dsttag:" ++ toString id
    let s1 := (estoreSet tagKey (.etag updatedTag) store).2
    let acc :=
      match oldTag with
      | some ot =>
        if ot.name = trimmedName then (s1, commands, [])
        else commands.foldl (renameStep ot.name trimmedName) (s1, commands, [])
      | none => (s1, commands, [])
    ⟨none, tags.map (fun t => if t.id = id then updatedTag else t), acc.2.1, acc.1,
     (tagKey, Entity.etag updatedTag) :: acc.2.2⟩

/-! ## Load and default seeding (`loadData` lines 324–397,
`initializeDefaults` lines 399–407, `initializeDefaultTags` lines 409–417,
defaults lines 164–203) -/

/-- The `DEFAULT_COMMANDS` (lines 164–192). -/
def DEFAULT_COMMANDS : List Command :=
  [⟨1, "God Mode", "c_godmode()",
    "https://static.wikia.nocookie.net/dont-starve-game/images/4/42/Wilson_Portrait.png/revision/latest?cb=20160723191003",
    ["Admin"], none, false⟩,
   ⟨2, "Spawn Spider", "c_spawn(\"spider\")",
    "https://static.wikia.nocookie.net/dont-starve-game/images/1/14/Spider_Build.png/revision/latest?cb=20160723194014",
    ["Spawning"], some ("spawn"), false⟩,
   ⟨3, "Give Gold", "c_give(\"goldnugget\", 40)",
    "https://static.wikia.nocookie.net/dont-starve-game/images/9/92/Gold_Nugget.png/revision/latest?cb=20160723185614",
    ["Items"], some ("give"), true⟩]

/-- The `DEFAULT_TAGS` (lines 199–203). -/
def DEFAULT_TAGS : List Tag :=
  [⟨1, "Admin", "#ef4444"⟩, ⟨2, "Spawning", "#8b5cf6"⟩, ⟨3, "Items", "#10b981"⟩]

/-- The `initializeDefaults`: write each default command through the adapter. -/
def initializeDefaults (s : EStore) : EStore :=
  DEFAULT_COMMANDS.foldl (fun s c => (estoreSet ("dst:" ++ toString c.id) (.ecmd c) s).2) s

/-- The `initializeDefaultTags`: write each default tag through the adapter. -/
def initializeDefaultTags (s : EStore) : EStore :=
  DEFAULT_TAGS.foldl (fun s t => (estoreSet ("dsttag:" ++ toString t.id) (.etag t) s).2) s

/-- Stable ascending insertion by id (`.sort((a, b) => a.id - b.id)`). -/
def insertSorted {α : Type} (idOf : α → Nat) (x : α) : List α → List α
  | [] => [x]
  | y :: ys => if idOf x < idOf y then x :: y :: ys else y :: insertSorted idOf x ys

/-- Sort a collection ascending by id. -/
def sortById {α : Type} (idOf : α → Nat) (l : List α) : List α :=
  l.foldl (fun acc x => insertSorted idOf x acc) []

/-- A stored record parsed as a `Tag` (a record of another shape is
skipped during load, as an unparseable record is). -/
def parseTag : Entity → Option Tag
  | .etag t => some t
  | _ => none

/-- A stored record parsed as a `Command`. -/
def parseCmd : Entity → Option Command
  | .ecmd c => some c
  | _ => none

/-- Result of one `loadData` run. -/
structure LoadRes where
  tags : List Tag
  commands : List Command
  store : EStore
  deriving DecidableEq

/-- The `loadData` (lines 324–397), happy path (storage available): list tag
keys, seed defaults when none, else load and sort; then the same for
command keys against the store as left by the tag phase. -/
def loadData (s : EStore) : LoadRes :=
  let tagKeys := estoreList ("dsttag:") s
  let tr : List Tag × EStore :=
    if tagKeys.isEmpty then (DEFAULT_TAGS, initializeDefaultTags s)
    else (sortById Tag.id (tagKeys.filterMap (fun k => (estoreGet k s).bind parseTag)), s)
  let cmdKeys := estoreList ("dst:") tr.2
  let cr : List Command × EStore :=
    if cmdKeys.isEmpty then (DEFAULT_COMMANDS, initializeDefaults tr.2)
    else (sortById Command.id (cmdKeys.filterMap (fun k => (estoreGet k tr.2).bind parseCmd)), tr.2)
  ⟨tr.1, cr.1, cr.2⟩

/-! ## Claims -/

theorem utf8Len_replicate (c : Char) : ∀ n,
    String.utf8Len (List.replicate n c) = n * c.utf8Size := by
  intro n
  induction n with
  | zero => simp
  | succ m ih =>
    rw [List.replicate_succ, String.utf8Len_cons, ih, Nat.succ_mul]

theorem utf8ByteSize_replicate (c : Char) (n : Nat) :
    (String.mk (List.replicate n c)).utf8ByteSize = n * c.utf8Size := by
  rw [String.utf8ByteSize_mk, utf8Len_replicate]

/-- A value one byte over the adapter quota. -/
def bigValue : String := String.mk (List.replicate 4800001 'a')

/-- Claim C1: for every key and every string value whose serialized byte
size exceeds the 4,800,000-byte quota, `StorageAdapter.set(key, value)`
returns `false` and performs no write, so the store — including any prior
value under that key — is left unchanged; the embedding is a total
function, so under these conditions `set` never throws. -/
theorem c1_set_over_quota_rejects (store : SStore) (key value : String)
    (h : 4800000 < value.utf8ByteSize) :
    adapterSet key value store = (false, store) := by
  have hne : value ≠ "" := by
    intro he
    rw [he] at h
    have h0 : ("" : String).utf8ByteSize = 0 := rfl
    omega
  unfold adapterSet
  rw [if_neg hne, if_pos h]

/-- Witness for C1 at a concrete over-quota value (4,800,001 bytes) and a
store holding a prior value for the key. -/
theorem c1_witness :
    adapterSet ("dst:1") bigValue [("dst_app_dst:1", "old")] =
      (false, [("dst_app_dst:1", "old")]) := by
  apply c1_set_over_quota_rejects
  rw [bigValue, utf8ByteSize_replicate]
  decide

/-- Claim C2: a durable cache entry written at time `t` (TTL = 7 days in
milliseconds): a read at any `now` with `now − t < TTL` returns the stored
value and leaves the store unchanged; a read at any `now` with
`now − t ≥ TTL` returns absent and deletes the record, after which every
read of that key, without an intervening write, returns absent. -/
theorem c2_durable_ttl (s : DStore) (t now : Int) (k u : String) :
    (now - t < expiryMs →
      durableRead now k (durableWrite t k u s) = (some u, durableWrite t k u s)) ∧
    (expiryMs ≤ now - t →
      durableRead now k (durableWrite t k u s) =
        (none, assocErase k (durableWrite t k u s)) ∧
      ∀ now2 : Int,
        (durableRead now2 k (assocErase k (durableWrite t k u s))).1 = none) := by
  constructor
  · intro h
    unfold durableRead durableWrite
    rw [assocLookup_assocSet_self]
    simp [h]
  · intro h
    constructor
    · unfold durableRead durableWrite
      rw [assocLookup_assocSet_self]
      simp [not_lt.mpr h]
    · intro now2
      unfold durableRead
      rw [assocLookup_assocErase_self]

/-- Witness for C2: entry written at `t = 0`; a read at 5 ms hits, a read
at exactly the TTL boundary (604,800,000 ms) misses and purges, and a much
later read of the purged store stays absent. -/
theorem c2_witness :
    durableRead 5 ("k") (durableWrite 0 ("k") "u" []) = (some ("u"), durableWrite 0 ("k") "u" []) ∧
    durableRead 604800000 ("k") (durableWrite 0 ("k") "u" []) =
      (none, assocErase ("k") (durableWrite 0 ("k") "u" [])) ∧
    (durableRead 999999999999 ("k") (assocErase ("k") (durableWrite 0 ("k") "u" []))).1 = none := by
  refine ⟨(c2_durable_ttl [] 0 5 ("k") "u").1 (by decide),
    ((c2_durable_ttl [] 0 604800000 ("k") "u").2 (by decide)).1,
    ((c2_durable_ttl [] 0 604800000 ("k") "u").2 (by decide)).2 999999999999⟩

theorem mem_assocSet {α : Type} (k : String) (v : α) (p : String × α) :
    ∀ l : List (String × α), p ∈ assocSet k v l → p = (k, v) ∨ p ∈ l := by
  intro l
  induction l with
  | nil =>
    intro h
    simp [assocSet] at h
    exact Or.inl h
  | cons q t ih =>
    obtain ⟨k', v'⟩ := q
    by_cases hk : k' = k
    · intro h
      simp only [assocSet, hk, if_pos] at h
      rcases List.mem_cons.mp h with h | h
      · exact Or.inl h
      · exact Or.inr (List.mem_cons_of_mem _ h)
    · intro h
      simp only [assocSet, hk, if_false] at h
      rcases List.mem_cons.mp h with h | h
      · exact Or.inr (h ▸ List.mem_cons_self _ _)
      · rcases ih h with h | h
        · exact Or.inl h
        · exact Or.inr (List.mem_cons_of_mem _ h)

theorem mem_assocErase {α : Type} (k : String) (p : String × α) :
    ∀ l : List (String × α), p ∈ assocErase k l → p ∈ l := by
  intro l
  induction l with
  | nil => intro h; exact absurd h (List.not_mem_nil p)
  | cons q t ih =>
    obtain ⟨k', v'⟩ := q
    by_cases hk : k' = k
    · intro h
      simp only [assocErase, hk, if_pos] at h
      exact List.mem_cons_of_mem _ (ih h)
    · intro h
      simp only [assocErase, hk, if_false] at h
      rcases List.mem_cons.mp h with h | h
      · exact h ▸ List.mem_cons_self _ _
      · exact List.mem_cons_of_mem _ (ih h)

theorem length_assocErase_le {α : Type} (k : String) :
    ∀ l : List (String × α), (assocErase k l).length ≤ l.length := by
  intro l
  induction l with
  | nil => simp [assocErase]
  | cons q t ih =>
    obtain ⟨k', v'⟩ := q
    by_cases hk : k' = k
    · simp only [assocErase, hk, if_pos, List.length_cons]
      omega
    · simp only [assocErase, hk, if_false, List.length_cons]
      omega

theorem mem_mgrEvict (c : MCache) (p : String × String) (h : p ∈ mgrEvict c) : p ∈ c := by
  cases c with
  | nil =>
    unfold mgrEvict at h
    exact h
  | cons hd t =>
    obtain ⟨fk, w⟩ := hd
    simp only [mgrEvict] at h
    by_cases h100 : maxCacheSize ≤ ((fk, w) :: t).length
    · rw [if_pos h100] at h
      by_cases hfk : fk = ""
      · rw [if_pos hfk] at h
        exact h
      · rw [if_neg hfk] at h
        exact mem_assocErase fk p _ h
    · rw [if_neg h100] at h
      exact h

theorem mgrEvict_length_le (c : MCache) (hc : ∀ p ∈ c, p.1 ≠ "")
    (hlen : c.length ≤ 100) : (mgrEvict c).length ≤ 99 := by
  cases c with
  | nil =>
    unfold mgrEvict
    simp
  | cons hd t =>
    obtain ⟨fk, w⟩ := hd
    simp only [mgrEvict]
    by_cases h100 : maxCacheSize ≤ ((fk, w) :: t).length
    · rw [if_pos h100]
      have hfk : fk ≠ "" := hc (fk, w) (List.mem_cons_self _ _)
      rw [if_neg hfk]
      have herase : assocErase fk ((fk, w) :: t) = assocErase fk t := by
        simp [assocErase]
      rw [herase]
      have h2 := length_assocErase_le fk t
      simp only [List.length_cons] at hlen
      omega
    · rw [if_neg h100]
      simp only [maxCacheSize, not_le, List.length_cons] at h100
      simp only [List.length_cons]
      omega

/-- The invariant behind C3: a `set` with a nonempty key keeps all cache
keys nonempty and the size within the maximum. -/
theorem mgrSet_preserves (c : MCache) (k v : String) (hk : k ≠ "")
    (hc : ∀ p ∈ c, p.1 ≠ "") (hlen : c.length ≤ 100) :
    (∀ p ∈ mgrSet c k v, p.1 ≠ "") ∧ (mgrSet c k v).length ≤ 100 := by
  unfold mgrSet
  constructor
  · intro p hp
    rcases mem_assocSet k v p _ hp with h | h
    · rw [h]
      exact hk
    · exact hc p (mem_mgrEvict c p h)
  · have h1 := length_assocSet_le k v (mgrEvict c)
    have h2 := mgrEvict_length_le c hc hlen
    omega

theorem applyMgrSets_preserves :
    ∀ (ops : List (String × String)) (c : MCache), (∀ p ∈ ops, p.1 ≠ "") →
      (∀ p ∈ c, p.1 ≠ "") → c.length ≤ 100 →
      (∀ p ∈ applyMgrSets ops c, p.1 ≠ "") ∧ (applyMgrSets ops c).length ≤ 100 := by
  intro ops
  induction ops with
  | nil =>
    intro c _ hc hlen
    exact ⟨hc, hlen⟩
  | cons op t ih =>
    intro c hops hc hlen
    have hop : op.1 ≠ "" := hops op (List.mem_cons_self _ _)
    have hrest : ∀ p ∈ t, p.1 ≠ "" := fun p hp => hops p (List.mem_cons_of_mem _ hp)
    have step := mgrSet_preserves c op.1 op.2 hop hc hlen
    exact ih (mgrSet c op.1 op.2) hrest step.1 step.2

/-- Claim C3 (amended: every `set` in the sequence uses a nonempty key —
the eviction guard `if (firstKey)` treats an empty-string oldest key as
missing and skips eviction): starting from the empty memory cache, after
any sequence of `set` calls the number of entries never exceeds the
configured maximum of 100. -/
theorem c3_size_bounded (ops : List (String × String)) (h : ∀ p ∈ ops, p.1 ≠ "") :
    (applyMgrSets ops []).length ≤ 100 :=
  (applyMgrSets_preserves ops [] h (by intro p hp; exact absurd hp (List.not_mem_nil p))
    (by simp)).2

/-- Witness for C3 (amended) at a concrete one-element sequence. -/
theorem c3_witness : (applyMgrSets [("a", "1")] []).length ≤ 100 :=
  c3_size_bounded [("a", "1")] (by decide)

/-- A 101-call sequence: an empty-string key first, then 100 distinct
nonempty keys. -/
def c3ops : List (String × String) :=
  ("", "v") :: ((List.range 100).map (fun i => (toString i, "v")))

/-- Counterexample to C3 as stated: after this sequence of `set` calls on
the initially empty cache the cache holds 101 entries — when the cache is
full and the oldest-inserted key is the empty string, the truthiness guard
`if (firstKey)` skips eviction and the insertion grows the map past the
maximum. -/
theorem c3_counterexample : 100 < (applyMgrSets c3ops []).length := by
  decide

/-- A binding's lookup survives a `set` under a different key up to
possible removal by the eviction block. -/
theorem lookup_mgrSet_pinned (c : MCache) (k v key value : String) (hne : k ≠ key)
    (h : assocLookup c key = some value ∨ assocLookup c key = none) :
    assocLookup (mgrSet c k v) key = some value ∨
      assocLookup (mgrSet c k v) key = none := by
  unfold mgrSet
  rw [assocLookup_assocSet_ne k key v _ hne]
  cases c with
  | nil =>
    simp only [mgrEvict]
    exact h
  | cons hd t =>
    obtain ⟨fk, w⟩ := hd
    simp only [mgrEvict]
    by_cases h100 : maxCacheSize ≤ ((fk, w) :: t).length
    · rw [if_pos h100]
      by_cases hfk : fk = ""
      · rw [if_pos hfk]
        exact h
      · rw [if_neg hfk]
        by_cases hfkey : fk = key
        · subst hfkey
          exact Or.inr (assocLookup_assocErase_self fk _)
        · rw [assocLookup_assocErase_ne fk key _ hfkey]
          exact h
    · rw [if_neg h100]
      exact h

theorem lookup_applyCOps_pinned (key value : String) :
    ∀ (ops : List COp) (c : MCache),
      ops.all (fun op => match op with | .cset k _ => k != key | .cclear => true) = true →
      (assocLookup c key = some value ∨ assocLookup c key = none) →
      (assocLookup (applyCOps ops c) key = some value ∨
        assocLookup (applyCOps ops c) key = none) := by
  intro ops
  induction ops with
  | nil =>
    intro c _ h
    exact h
  | cons op t ih =>
    intro c hall h
    rw [List.all_cons, Bool.and_eq_true] at hall
    cases op with
    | cset k v =>
      have hk : k ≠ key := by
        have := hall.1
        simp only [bne_iff_ne] at this
        exact this
      exact ih (mgrSet c k v) hall.2 (lookup_mgrSet_pinned c k v key value hk h)
    | cclear =>
      exact ih (mgrClear c) hall.2 (Or.inr rfl)

/-- Claim C9 (amended: the inserted value is a nonempty string — `get`
returns `this.memoryCache.get(key) || null`, so an empty-string value
reads back as absent): after `set(key, value)`, `get(key)` returns that
value, and it keeps returning it across any further `set`/`clear` calls
that do not target `key`, until (and unless) the entry itself is removed
from the map by capacity eviction or `clear()`. -/
theorem c9_get_stable (c : MCache) (key value : String) (hv : value ≠ "")
    (ops : List COp)
    (hops : ops.all (fun op => match op with
      | .cset k _ => k != key | .cclear => true) = true) :
    mgrGet (mgrSet c key value) key = some value ∧
    (mgrGet (applyCOps ops (mgrSet c key value)) key = some value ∨
      assocLookup (applyCOps ops (mgrSet c key value)) key = none) := by
  constructor
  · exact mgrGet_mgrSet_self c key value hv
  · have h0 : assocLookup (mgrSet c key value) key = some value ∨
        assocLookup (mgrSet c key value) key = none :=
      Or.inl (assocLookup_mgrSet_self c key value)
    rcases lookup_applyCOps_pinned key value ops (mgrSet c key value) hops h0 with h | h
    · left
      unfold mgrGet
      rw [h]
      simp [hv]
    · right
      exact h

/-- Witness for C9 (amended) at a concrete key, value and op sequence. -/
theorem c9_witness :
    mgrGet (mgrSet [] "k" "u") "k" = some ("u") ∧
    (mgrGet (applyCOps [.cset ("j") "w"] (mgrSet [] "k" "u")) "k" = some ("u") ∨
      assocLookup (applyCOps [.cset ("j") "w"] (mgrSet [] "k" "u")) "k" = none) :=
  c9_get_stable [] "k" "u" (by decide) [.cset ("j") "w"] (by decide)

/-- Counterexample to C9 as stated: inserting the empty-string value under
a key makes the very next `get` of that key return absent rather than the
inserted value (`memoryCache.get(key) || null` coalesces the falsy `""`),
with the entry still present in the map. -/
theorem c9_counterexample :
    ¬ (mgrGet (mgrSet [] "k" "") "k" = some ("")) ∧
    assocLookup (mgrSet [] "k" "") "k" = some ("") := by
  decide

theorem assocLookup_eq_none_of_not_mem {α : Type} (k : String) :
    ∀ l : List (String × α), k ∉ l.map Prod.fst → assocLookup l k = none := by
  intro l
  induction l with
  | nil => intro _; rfl
  | cons q t ih =>
    obtain ⟨k', v'⟩ := q
    intro h
    simp only [List.map_cons, List.mem_cons, not_or] at h
    simp only [assocLookup]
    rw [if_neg (fun he => h.1 he.symm)]
    exact ih h.2

theorem assocErase_of_not_mem {α : Type} (k : String) :
    ∀ l : List (String × α), k ∉ l.map Prod.fst → assocErase k l = l := by
  intro l
  induction l with
  | nil => intro _; rfl
  | cons q t ih =>
    obtain ⟨k', v'⟩ := q
    intro h
    simp only [List.map_cons, List.mem_cons, not_or] at h
    simp only [assocErase]
    rw [if_neg (fun he => h.1 he.symm), ih h.2]

theorem length_assocSet_of_isSome {α : Type} (k : String) (v : α) :
    ∀ l : List (String × α), (assocLookup l k).isSome →
      (assocSet k v l).length = l.length := by
  intro l
  induction l with
  | nil => intro h; simp [assocLookup] at h
  | cons q t ih =>
    obtain ⟨k', v'⟩ := q
    intro h
    by_cases hk : k' = k
    · simp [assocSet, hk]
    · simp only [assocLookup, if_neg hk] at h
      simp only [assocSet, if_neg hk, List.length_cons]
      rw [ih h]

/-- Claim C10 (amended: the oldest-inserted key is nonempty — when it is
the empty string the truthiness guard skips eviction entirely): when the
cache is at capacity (100 entries, distinct keys) and `set(key, value)` is
called with a `key` already present but different from the oldest key, the
eviction still runs: the unrelated oldest entry is removed, and since the
`Map.set` then only overwrites `key` in place, the cache ends below
capacity at 99 entries. -/
theorem c10_full_update_evicts (c : MCache) (key v fk w : String)
    (t : List (String × String))
    (hc : c = (fk, w) :: t)
    (hlen : c.length = 100)
    (hnd : (c.map Prod.fst).Nodup)
    (hfk : fk ≠ "")
    (hne : fk ≠ key)
    (hkey : (assocLookup c key).isSome) :
    assocLookup (mgrSet c key v) fk = none ∧ (mgrSet c key v).length = 99 := by
  subst hc
  simp only [List.map_cons, List.nodup_cons] at hnd
  have h100 : maxCacheSize ≤ ((fk, w) :: t).length := by
    rw [hlen]
    decide
  have hev : mgrEvict ((fk, w) :: t) = t := by
    simp only [mgrEvict]
    rw [if_pos h100, if_neg hfk]
    simp only [assocErase, if_pos rfl]
    exact assocErase_of_not_mem fk t hnd.1
  have hkt : (assocLookup t key).isSome := by
    simp only [assocLookup, if_neg hne] at hkey
    exact hkey
  unfold mgrSet
  rw [hev]
  constructor
  · rw [assocLookup_assocSet_ne key fk v t (Ne.symm hne)]
    exact assocLookup_eq_none_of_not_mem fk t hnd.1
  · rw [length_assocSet_of_isSome key v t hkt]
    simp only [List.length_cons] at hlen
    omega

/-- The tail of the concrete 100-entry witness cache for C10. -/
def c10tail : MCache := (List.range 99).map (fun i => (toString (i + 1), "w"))

/-- A full cache of 100 distinct nonempty keys "0".."99". -/
def c10full : MCache := ("0", "w") :: c10tail

/-- Witness for C10 (amended): updating present key "5" in the full cache
evicts the unrelated oldest key "0" and leaves 99 entries. -/
theorem c10_witness :
    assocLookup (mgrSet c10full ("5") "x") "0" = none ∧
      (mgrSet c10full ("5") "x").length = 99 :=
  c10_full_update_evicts c10full ("5") "x" "0" "w" c10tail rfl (by decide) (by decide)
    (by decide) (by decide) (by decide)

/-- A full cache whose oldest-inserted key is the empty string; key "0" is
present. -/
def c10empty : MCache := ("", "w") :: ((List.range 99).map (fun i => (toString i, "w")))

/-- Counterexample to C10 as stated: with the cache at capacity and the
oldest-inserted key being the empty string, `set("0", "x")` (an
already-present key) evicts nothing — the oldest entry survives and the
cache stays at 100 entries, contradicting "every call set(key, value)
evicts the oldest-inserted entry before storing". -/
theorem c10_counterexample :
    assocLookup (mgrSet c10empty ("0") "x") "" = some ("w") ∧
      (mgrSet c10empty ("0") "x").length = 100 := by
  decide

/-- The candidate loop returns exactly the first acceptable candidate's
value, having fetched exactly the candidates up to and including it; when
no candidate is acceptable it returns absent after fetching all of them. -/
theorem tryPatterns_firstFound (oracle : String → RemoteResp) (now : Int) (ck : String) :
    ∀ (ps : List String) (mem : MCache) (dur : DStore),
      (∀ i url, firstFound oracle ps = some (i, url) →
        (tryPatterns oracle now ck ps mem dur).val = some url ∧
        (tryPatterns oracle now ck ps mem dur).trace = ps.take (i + 1)) ∧
      (firstFound oracle ps = none →
        (tryPatterns oracle now ck ps mem dur).val = none ∧
        (tryPatterns oracle now ck ps mem dur).trace = ps) := by
  intro ps
  induction ps with
  | nil =>
    intro mem dur
    constructor
    · intro i url h
      simp [firstFound] at h
    · intro _
      exact ⟨rfl, rfl⟩
  | cons p t ih =>
    intro mem dur
    cases hr : respSuccess (oracle p) with
    | some url0 =>
      constructor
      · intro i url h
        simp only [firstFound, hr, Option.some.injEq, Prod.mk.injEq] at h
        obtain ⟨hi, hu⟩ := h
        subst hi
        subst hu
        simp [tryPatterns, hr]
      · intro h
        simp only [firstFound, hr] at h
        exact Option.noConfusion h
    | none =>
      constructor
      · intro i url h
        simp only [firstFound, hr, Option.map_eq_some'] at h
        obtain ⟨⟨j, u⟩, hj, he⟩ := h
        simp only [Prod.mk.injEq] at he
        obtain ⟨hi, hu⟩ := he
        subst hi
        subst hu
        have IH := (ih mem dur).1 j u hj
        simp only [tryPatterns, hr]
        refine ⟨IH.1, ?_⟩
        show p :: (tryPatterns oracle now ck t mem dur).trace = (p :: t).take (j + 1 + 1)
        rw [IH.2]
        rfl
      · intro h
        simp only [firstFound, hr, Option.map_eq_none'] at h
        have IH := (ih mem dur).2 h
        simp only [tryPatterns, hr]
        refine ⟨IH.1, ?_⟩
        show p :: (tryPatterns oracle now ck t mem dur).trace = p :: t
        rw [IH.2]

/-- Claim C4: for a non-blank name on which both cache tiers miss,
`fetchDSTImage` tries the remote candidates `{name}_Build.png`,
`{name}.png`, `{name}_Portrait.png`, `{name}_Icon.png` in that fixed
order; it returns the value of the first acceptable candidate having
issued exactly the remote calls up to and including it (none after), every
per-candidate failure — thrown fetch, non-OK response, missing field —
only moves on to the next candidate, and when all four fail it returns
absent having issued exactly the four calls. -/
theorem c4_candidate_order (oracle : String → RemoteResp) (now : Int)
    (itemName : String) (mem : MCache) (dur : DStore)
    (hname : jsTrim itemName ≠ "")
    (hmem : mgrGet mem (jsTrim (jsToLower itemName)) = none)
    (hdur : (durableRead now ("dst_img_" ++ jsTrim (jsToLower itemName)) dur).1 = none) :
    (∀ i url, firstFound oracle (patterns itemName) = some (i, url) →
      (fetchDSTImage oracle now itemName mem dur).val = some url ∧
      (fetchDSTImage oracle now itemName mem dur).trace = (patterns itemName).take (i + 1)) ∧
    (firstFound oracle (patterns itemName) = none →
      (fetchDSTImage oracle now itemName mem dur).val = none ∧
      (fetchDSTImage oracle now itemName mem dur).trace = patterns itemName) := by
  have hfetch : fetchDSTImage oracle now itemName mem dur =
      tryPatterns oracle now (jsTrim (jsToLower itemName)) (patterns itemName) mem
        (durableRead now ("dst_img_" ++ jsTrim (jsToLower itemName)) dur).2 := by
    unfold fetchDSTImage
    rw [if_neg hname, hmem]
    rcases hd : durableRead now ("dst_img_" ++ jsTrim (jsToLower itemName)) dur with ⟨o, dur2⟩
    rw [hd] at hdur
    simp only at hdur
    subst hdur
    rfl
  rw [hfetch]
  exact tryPatterns_firstFound oracle now (jsTrim (jsToLower itemName)) (patterns itemName) mem _

/-- A remote double: only `X.png` resolves. -/
def wikiOracle : String → RemoteResp :=
  fun f => if f = "X.png" then .ok (some ("http://u")) else .notOk

/-- Witness for C4: with both tiers empty and only the second candidate
acceptable, resolving "X" returns its value after exactly the first two
remote calls. -/
theorem c4_witness :
    (fetchDSTImage wikiOracle 0 ("X") [] []).val = some ("http://u") ∧
    (fetchDSTImage wikiOracle 0 ("X") [] []).trace = ["X_Build.png", "X.png"] :=
  (c4_candidate_order wikiOracle 0 ("X") [] [] (by decide) (by decide) (by decide)).1 1
    "http://u" (by decide)

theorem respSuccess_ne_empty (r : RemoteResp) (u : String) (h : respSuccess r = some u) :
    u ≠ "" := by
  cases r with
  | ok f =>
    cases f with
    | some url =>
      simp only [respSuccess] at h
      by_cases hu : url = ""
      · rw [if_pos hu] at h
        exact Option.noConfusion h
      · rw [if_neg hu] at h
        injection h with h1
        subst h1
        exact hu
    | none => exact Option.noConfusion h
  | notOk => exact Option.noConfusion h
  | netErr => exact Option.noConfusion h

/-- A successful candidate loop run returns a nonempty value and leaves the
memory cache as `mgrSet mem ck url`. -/
theorem tryPatterns_success (oracle : String → RemoteResp) (now : Int) (ck : String) :
    ∀ (ps : List String) (mem : MCache) (dur : DStore) (url : String) (m2 : MCache)
      (d2 : DStore) (tr : List String),
      tryPatterns oracle now ck ps mem dur = ⟨some url, m2, d2, tr⟩ →
      url ≠ "" ∧ m2 = mgrSet mem ck url := by
  intro ps
  induction ps with
  | nil =>
    intro mem dur url m2 d2 tr h
    simp only [tryPatterns, RRes.mk.injEq] at h
    exact absurd h.1 (by simp)
  | cons p t ih =>
    intro mem dur url m2 d2 tr h
    cases hr : respSuccess (oracle p) with
    | some u =>
      simp only [tryPatterns, hr, RRes.mk.injEq, Option.some.injEq] at h
      obtain ⟨h1, h2, h3, h4⟩ := h
      subst h1
      refine ⟨respSuccess_ne_empty _ _ hr, h2.symm⟩
    | none =>
      simp only [tryPatterns, hr, RRes.mk.injEq] at h
      obtain ⟨h1, h2, h3, h4⟩ := h
      have hrec : tryPatterns oracle now ck t mem dur =
          ⟨some url, (tryPatterns oracle now ck t mem dur).mem,
            (tryPatterns oracle now ck t mem dur).dur,
            (tryPatterns oracle now ck t mem dur).trace⟩ := by
        rw [← h1]
      have IH := ih mem dur url _ _ _ hrec
      rw [← h2]
      exact IH

theorem durableRead_some_state (now : Int) (k u : String) (s s2 : DStore)
    (h : durableRead now k s = (some u, s2)) : s2 = s := by
  unfold durableRead at h
  cases hl : assocLookup s k with
  | none =>
    rw [hl] at h
    exact Option.noConfusion (congrArg Prod.fst h)
  | some e =>
    rw [hl] at h
    change (if now - e.timestamp < expiryMs then (some e.url, s)
      else (none, assocErase k s)) = (some u, s2) at h
    by_cases hf : now - e.timestamp < expiryMs
    · rw [if_pos hf] at h
      exact (congrArg Prod.snd h).symm
    · rw [if_neg hf] at h
      exact Option.noConfusion (congrArg Prod.fst h)

/-- Claim C8: resolution is idempotent with respect to remote traffic —
when a `fetchDSTImage` run returns a value, running it again with the same
name on the resulting cache state returns the same value and issues zero
remote calls (empty call trace), the value now coming from the caches. -/
theorem c8_idempotent (oracle : String → RemoteResp) (now : Int) (itemName : String)
    (mem : MCache) (dur : DStore) (url : String) (mem2 : MCache) (dur2 : DStore)
    (tr : List String)
    (h : fetchDSTImage oracle now itemName mem dur = ⟨some url, mem2, dur2, tr⟩) :
    (fetchDSTImage oracle now itemName mem2 dur2).val = some url ∧
    (fetchDSTImage oracle now itemName mem2 dur2).trace = [] := by
  by_cases hname : jsTrim itemName = ""
  · unfold fetchDSTImage at h
    rw [if_pos hname] at h
    simp only [RRes.mk.injEq] at h
    exact absurd h.1 (by simp)
  · unfold fetchDSTImage at h
    rw [if_neg hname] at h
    cases hm : mgrGet mem (jsTrim (jsToLower itemName)) with
    | some v =>
      rw [hm] at h
      simp only [RRes.mk.injEq, Option.some.injEq] at h
      obtain ⟨h1, h2, h3, h4⟩ := h
      subst h1
      subst h2
      subst h3
      unfold fetchDSTImage
      rw [if_neg hname, hm]
      exact ⟨rfl, rfl⟩
    | none =>
      rw [hm] at h
      rcases hd : durableRead now ("dst_img_" ++ jsTrim (jsToLower itemName)) dur
        with ⟨o, durX⟩
      rw [hd] at h
      cases o with
      | some u2 =>
        simp only [RRes.mk.injEq, Option.some.injEq] at h
        obtain ⟨h1, h2, h3, h4⟩ := h
        have hX : durX = dur := durableRead_some_state _ _ _ _ _ hd
        rw [hX] at hd
        unfold fetchDSTImage
        rw [if_neg hname, ← h2, ← h3, hX, ← h1]
        by_cases hu2 : u2 = ""
        · have hm2 : mgrGet (mgrSet mem (jsTrim (jsToLower itemName)) u2)
              (jsTrim (jsToLower itemName)) = none := by
            unfold mgrGet
            rw [assocLookup_mgrSet_self]
            simp [hu2]
          rw [hm2, hd]
          exact ⟨rfl, rfl⟩
        · rw [mgrGet_mgrSet_self _ _ _ hu2]
          exact ⟨rfl, rfl⟩
      | none =>
        obtain ⟨hne, hmem2⟩ :=
          tryPatterns_success oracle now (jsTrim (jsToLower itemName))
            (patterns itemName) mem durX url mem2 dur2 tr h
        subst hmem2
        unfold fetchDSTImage
        rw [if_neg hname, mgrGet_mgrSet_self _ _ _ hne]
        exact ⟨rfl, rfl⟩

/-- Witness for C8: the successful resolution of "X" (two remote calls),
then a second run on the resulting state: same value, zero remote calls. -/
theorem c8_witness :
    (fetchDSTImage wikiOracle 0 ("X") [("x", "http://u")]
      [("dst_img_x", ⟨"http://u", 0⟩)]).val = some ("http://u") ∧
    (fetchDSTImage wikiOracle 0 ("X") [("x", "http://u")]
      [("dst_img_x", ⟨"http://u", 0⟩)]).trace = [] :=
  c8_idempotent wikiOracle 0 ("X") [] [] "http://u" [("x", "http://u")]
    [("dst_img_x", ⟨"http://u", 0⟩)] ["X_Build.png", "X.png"] (by decide)

/-- Claim C5 (amended: the new trimmed name is nonempty — a blank name is
rejected by the earlier required-name check, whose toast is
`'Tag name is required!'` rather than the conflict report): renaming a tag
to a name that matches, case-insensitively, the name of another existing
tag (different id) is rejected with the conflict report and performs zero
writes: the store, the write trace, the tag list and the command list are
all unchanged. -/
theorem c5_conflict_rejected (tags : List Tag) (commands : List Command)
    (editTagName editTagColor : String) (id : Nat) (store : EStore)
    (hname : jsTrim editTagName ≠ "")
    (hconf : tags.any (fun t =>
      (t.id != id) && (jsToLower t.name == jsToLower (jsTrim editTagName))) = true) :
    handleSaveTag tags commands editTagName editTagColor id store =
      ⟨some .conflict, tags, commands, store, []⟩ := by
  unfold handleSaveTag
  rw [if_neg hname, if_pos hconf]

/-- Witness for C5 (amended): renaming tag 2 to " admin " collides
case-insensitively with tag 1 "Admin"; nothing is written. -/
theorem c5_witness :
    handleSaveTag [⟨1, "Admin", "#ef4444"⟩, ⟨2, "Items", "#10b981"⟩] []
      " admin " "#10b981" 2 [] =
      ⟨some .conflict, [⟨1, "Admin", "#ef4444"⟩, ⟨2, "Items", "#10b981"⟩], [], [], []⟩ :=
  c5_conflict_rejected [⟨1, "Admin", "#ef4444"⟩, ⟨2, "Items", "#10b981"⟩] []
    " admin " "#10b981" 2 [] (by decide) (by decide)

/-- Counterexample to C5 as stated: with an (unsaved, empty-named) tag 1 in
the list and a rename of tag 2 to a blank name — whose trimmed form equals
tag 1's name, a case-insensitive collision with another existing tag — the
rejection is the required-name report, not the conflict report (the write
count is still zero). -/
theorem c5_counterexample :
    (handleSaveTag [⟨1, "", "#3b82f6"⟩, ⟨2, "B", "#10b981"⟩] [] " " "#10b981" 2 []).err ≠
      some SaveTagErr.conflict ∧
    (handleSaveTag [⟨1, "", "#3b82f6"⟩, ⟨2, "B", "#10b981"⟩] [] " " "#10b981" 2 []).err =
      some SaveTagErr.required := by
  decide

/-- Claim C7: `loadData` on the empty store seeds exactly the 3 default
commands (ids 1–3) and the 3 default tags, each written through the
adapter, leaving exactly 6 keys in the store; a second `loadData` on that
store, with no intervening writes, returns exactly the same tags and
commands and leaves the store untouched. -/
theorem c7_seed_defaults :
    (loadData []).tags = DEFAULT_TAGS ∧
    (loadData []).commands = DEFAULT_COMMANDS ∧
    (loadData []).store.length = 6 ∧
    loadData ((loadData []).store) =
      ⟨DEFAULT_TAGS, DEFAULT_COMMANDS, (loadData []).store⟩ := by
  decide

/-- Apply the rename loop's per-command in-memory update for a whole
iteration list to one command (statement-side device for C6). -/
def applyRename (oldN newN : String) (l : List Command) (c : Command) : Command :=
  l.foldl (fun c cmd =>
    if cmd.tags.contains oldN then
      (if c.id = cmd.id then substTag oldN newN cmd else c)
    else c) c

/-- Apply a list of entity writes through the adapter in order. -/
def applyEWrites : List (String × Entity) → EStore → EStore
  | [], s => s
  | kv :: rest, s => applyEWrites rest ((estoreSet kv.1 kv.2 s).2)

/-- The rename cascade fold, characterised: its write trace is exactly the
referencing commands' rewrites in order, its store is those writes applied
through the adapter, and its command list is the pointwise in-memory
update. -/
theorem renameLoop_spec (oldN newN : String) :
    ∀ (rest : List Command) (s : EStore) (A : List Command)
      (w : List (String × Entity)),
      (List.foldl (renameStep oldN newN) (s, A, w) rest).2.2 =
        w ++ (rest.filter (fun c => c.tags.contains oldN)).map
          (fun c => ("dst:" ++ toString c.id, Entity.ecmd (substTag oldN newN c))) ∧
      (List.foldl (renameStep oldN newN) (s, A, w) rest).1 =
        applyEWrites ((rest.filter (fun c => c.tags.contains oldN)).map
          (fun c => ("dst:" ++ toString c.id, Entity.ecmd (substTag oldN newN c)))) s ∧
      (List.foldl (renameStep oldN newN) (s, A, w) rest).2.1 =
        A.map (applyRename oldN newN rest) := by
  intro rest
  induction rest with
  | nil =>
    intro s A w
    refine ⟨by simp, rfl, ?_⟩
    show A = A.map (fun c => c)
    rw [List.map_id']
  | cons cmd rest ih =>
    intro s A w
    cases hc : cmd.tags.contains oldN with
    | true =>
      have hcm : oldN ∈ cmd.tags := by simpa using hc
      have hstep : renameStep oldN newN (s, A, w) cmd =
          ((estoreSet ("dst:" ++ toString cmd.id)
              (.ecmd (substTag oldN newN cmd)) s).2,
           A.map (fun c => if c.id = cmd.id then substTag oldN newN cmd else c),
           w ++ [("dst:" ++ toString cmd.id, Entity.ecmd (substTag oldN newN cmd))]) := by
        simp [renameStep, hcm]
      rw [List.foldl_cons, hstep]
      obtain ⟨ihw, ihs, ihc⟩ := ih _ _ _
      refine ⟨?_, ?_, ?_⟩
      · rw [ihw]
        simp [List.filter_cons, hcm]
      · rw [ihs]
        simp [List.filter_cons, hcm, applyEWrites]
      · rw [ihc, List.map_map]
        have hpt : (applyRename oldN newN rest ∘
            fun c => if c.id = cmd.id then substTag oldN newN cmd else c) =
            applyRename oldN newN (cmd :: rest) := by
          funext x
          simp [applyRename, hcm]
        rw [hpt]
    | false =>
      have hcm : oldN ∉ cmd.tags := by simpa using hc
      have hstep : renameStep oldN newN (s, A, w) cmd = (s, A, w) := by
        simp [renameStep, hcm]
      rw [List.foldl_cons, hstep]
      obtain ⟨ihw, ihs, ihc⟩ := ih s A w
      refine ⟨?_, ?_, ?_⟩
      · rw [ihw]
        simp [List.filter_cons, hcm]
      · rw [ihs]
        simp [List.filter_cons, hcm]
      · rw [ihc]
        have hpt : applyRename oldN newN rest = applyRename oldN newN (cmd :: rest) := by
          funext x
          simp [applyRename, hcm]
        rw [hpt]

theorem applyRename_fresh (oldN newN : String) :
    ∀ (l : List Command) (x : Command), (∀ cmd ∈ l, cmd.id ≠ x.id) →
      applyRename oldN newN l x = x := by
  intro l
  induction l with
  | nil => intro x _; rfl
  | cons cmd rest ih =>
    intro x h
    have h1 : cmd.id ≠ x.id := h cmd (List.mem_cons_self _ _)
    have hunfold : applyRename oldN newN (cmd :: rest) x =
        applyRename oldN newN rest
          (if cmd.tags.contains oldN then
            (if x.id = cmd.id then substTag oldN newN cmd else x) else x) := rfl
    have hstep : (if cmd.tags.contains oldN then
        (if x.id = cmd.id then substTag oldN newN cmd else x) else x) = x := by
      by_cases hcc : cmd.tags.contains oldN = true
      · rw [if_pos hcc, if_neg (Ne.symm h1)]
      · rw [if_neg hcc]
    rw [hunfold, hstep]
    exact ih x (fun c hcm => h c (List.mem_cons_of_mem _ hcm))

theorem applyRename_mem (oldN newN : String) :
    ∀ (l : List Command) (c : Command), (l.map Command.id).Nodup → c ∈ l →
      applyRename oldN newN l c =
        (if c.tags.contains oldN then substTag oldN newN c else c) := by
  intro l
  induction l with
  | nil =>
    intro c _ hc
    exact absurd hc (List.not_mem_nil c)
  | cons cmd rest ih =>
    intro c hnd hmem
    simp only [List.map_cons, List.nodup_cons] at hnd
    rcases List.mem_cons.mp hmem with he | hm
    · subst he
      have hunfold : applyRename oldN newN (c :: rest) c =
          applyRename oldN newN rest
            (if c.tags.contains oldN then
              (if c.id = c.id then substTag oldN newN c else c) else c) := rfl
      have hstep : (if c.tags.contains oldN then
          (if c.id = c.id then substTag oldN newN c else c) else c) =
          (if c.tags.contains oldN then substTag oldN newN c else c) := by
        by_cases hcc : c.tags.contains oldN = true
        · rw [if_pos hcc, if_pos rfl, if_pos hcc]
        · rw [if_neg hcc, if_neg hcc]
      rw [hunfold, hstep]
      apply applyRename_fresh
      intro cmd' hcmd'
      have hid : (if c.tags.contains oldN then substTag oldN newN c else c).id = c.id := by
        by_cases hcc : c.tags.contains oldN = true
        · rw [if_pos hcc]
          rfl
        · rw [if_neg hcc]
      rw [hid]
      intro he2
      exact hnd.1 (he2 ▸ List.mem_map_of_mem Command.id hcmd')
    · have h1 : cmd.id ≠ c.id := by
        intro he2
        exact hnd.1 (he2 ▸ List.mem_map_of_mem Command.id hm)
      have hunfold : applyRename oldN newN (cmd :: rest) c =
          applyRename oldN newN rest
            (if cmd.tags.contains oldN then
              (if c.id = cmd.id then substTag oldN newN cmd else c) else c) := rfl
      have hstep : (if cmd.tags.contains oldN then
          (if c.id = cmd.id then substTag oldN newN cmd else c) else c) = c := by
        by_cases hcc : cmd.tags.contains oldN = true
        · rw [if_pos hcc, if_neg (Ne.symm h1)]
        · rw [if_neg hcc]
      rw [hunfold, hstep]
      exact ih c hnd.2 hm

theorem substTag_resolves (oldN newN : String) (c : Command)
    (hc : c.tags.contains oldN = true) (hne : oldN ≠ newN) :
    newN ∈ (substTag oldN newN c).tags ∧ oldN ∉ (substTag oldN newN c).tags := by
  have hmem : oldN ∈ c.tags := by
    simpa using hc
  constructor
  · simp only [substTag]
    exact List.mem_map.mpr ⟨oldN, hmem, by simp⟩
  · simp only [substTag]
    intro hin
    obtain ⟨t, ht, he⟩ := List.mem_map.mp hin
    by_cases h' : t = oldN
    · rw [if_pos h'] at he
      exact hne he.symm
    · rw [if_neg h'] at he
      exact h' he

theorem applyEWrites_ok : ∀ (ws : List (String × Entity)) (s : EStore),
    (∀ kv ∈ ws, (encodeEntity kv.2).utf8ByteSize ≤ 4800000) →
    applyEWrites ws s =
      ws.foldl (fun s kv => assocSet ("dst_app_" ++ kv.1) kv.2 s) s := by
  intro ws
  induction ws with
  | nil => intro s _; rfl
  | cons kv rest ih =>
    intro s h
    have hkv := h kv (List.mem_cons_self _ _)
    have hstep : (estoreSet kv.1 kv.2 s).2 = assocSet ("dst_app_" ++ kv.1) kv.2 s := by
      unfold estoreSet
      rw [if_neg (not_lt.mpr hkv)]
    show applyEWrites rest ((estoreSet kv.1 kv.2 s).2) = _
    rw [List.foldl_cons, hstep]
    exact ih _ (fun kv' h' => h kv' (List.mem_cons_of_mem _ h'))

/-- Claim C6: a non-conflicting tag rename (nonempty new trimmed name, no
case-insensitive collision, the tag found, the name actually changed;
command ids distinct and every issued record within the adapter quota)
reports no error, first writes the updated tag record and then rewrites
exactly the commands whose tag set contains the old name — in order, with
the old name replaced by the new — leaving non-referencing commands
unwritten; afterwards every previously-referencing command's tag set
contains the new name and no longer the old, the in-memory lists are
updated accordingly, and the store equals the issued writes applied over
the initial store. -/
theorem c6_rename_cascade (tags : List Tag) (commands : List Command)
    (editTagName editTagColor : String) (id : Nat) (store : EStore) (ot : Tag)
    (hname : jsTrim editTagName ≠ "")
    (hconf : tags.any (fun t =>
      (t.id != id) && (jsToLower t.name == jsToLower (jsTrim editTagName))) = false)
    (hold : tags.find? (fun t => t.id == id) = some ot)
    (hchanged : ot.name ≠ jsTrim editTagName)
    (hids : (commands.map Command.id).Nodup)
    (hqt : (encodeEntity (.etag ⟨id, jsTrim editTagName, editTagColor⟩)).utf8ByteSize ≤
      4800000)
    (hqc : ∀ c ∈ commands, c.tags.contains ot.name = true →
      (encodeEntity (.ecmd (substTag ot.name (jsTrim editTagName) c))).utf8ByteSize ≤
        4800000) :
    (handleSaveTag tags commands editTagName editTagColor id store).err = none ∧
    (handleSaveTag tags commands editTagName editTagColor id store).writes =
      ("dsttag:" ++ toString id, Entity.etag ⟨id, jsTrim editTagName, editTagColor⟩) ::
        (commands.filter (fun c => c.tags.contains ot.name)).map
          (fun c => ("dst:" ++ toString c.id,
            Entity.ecmd (substTag ot.name (jsTrim editTagName) c))) ∧
    (handleSaveTag tags commands editTagName editTagColor id store).commands =
      commands.map (fun c =>
        if c.tags.contains ot.name then substTag ot.name (jsTrim editTagName) c else c) ∧
    (∀ c ∈ commands, c.tags.contains ot.name = true →
      jsTrim editTagName ∈ (substTag ot.name (jsTrim editTagName) c).tags ∧
      ot.name ∉ (substTag ot.name (jsTrim editTagName) c).tags) ∧
    (handleSaveTag tags commands editTagName editTagColor id store).tags =
      tags.map (fun t =>
        if t.id = id then (⟨id, jsTrim editTagName, editTagColor⟩ : Tag) else t) ∧
    (handleSaveTag tags commands editTagName editTagColor id store).store =
      (handleSaveTag tags commands editTagName editTagColor id store).writes.foldl
        (fun s kv => assocSet ("dst_app_" ++ kv.1) kv.2 s) store := by
  have hres : handleSaveTag tags commands editTagName editTagColor id store =
      ⟨none,
       tags.map (fun t =>
         if t.id = id then (⟨id, jsTrim editTagName, editTagColor⟩ : Tag) else t),
       (List.foldl (renameStep ot.name (jsTrim editTagName))
         ((estoreSet ("dsttag:" ++ toString id)
            (.etag ⟨id, jsTrim editTagName, editTagColor⟩) store).2, commands, [])
         commands).2.1,
       (List.foldl (renameStep ot.name (jsTrim editTagName))
         ((estoreSet ("dsttag:" ++ toString id)
            (.etag ⟨id, jsTrim editTagName, editTagColor⟩) store).2, commands, [])
         commands).1,
       ("dsttag:" ++ toString id, Entity.etag ⟨id, jsTrim editTagName, editTagColor⟩) ::
         (List.foldl (renameStep ot.name (jsTrim editTagName))
           ((estoreSet ("dsttag:" ++ toString id)
              (.etag ⟨id, jsTrim editTagName, editTagColor⟩) store).2, commands, [])
           commands).2.2⟩ := by
    simp only [handleSaveTag, if_neg hname, hconf, Bool.false_eq_true, if_false, hold,
      if_neg hchanged]
  obtain ⟨hw, hs, hcmds⟩ := renameLoop_spec ot.name (jsTrim editTagName) commands
    ((estoreSet ("dsttag:" ++ toString id)
      (.etag ⟨id, jsTrim editTagName, editTagColor⟩) store).2) commands []
  have hws : ∀ kv ∈ (commands.filter (fun c => c.tags.contains ot.name)).map
      (fun c => ("dst:" ++ toString c.id,
        Entity.ecmd (substTag ot.name (jsTrim editTagName) c))),
      (encodeEntity kv.2).utf8ByteSize ≤ 4800000 := by
    intro kv hkv
    obtain ⟨c, hcf, hkveq⟩ := List.mem_map.mp hkv
    obtain ⟨hcm, hcp⟩ := List.mem_filter.mp hcf
    rw [← hkveq]
    exact hqc c hcm hcp
  have hs1 : (estoreSet ("dsttag:" ++ toString id)
      (.etag ⟨id, jsTrim editTagName, editTagColor⟩) store).2 =
      assocSet ("dst_app_" ++ ("dsttag:" ++ toString id))
        (Entity.etag ⟨id, jsTrim editTagName, editTagColor⟩) store := by
    unfold estoreSet
    rw [if_neg (not_lt.mpr hqt)]
  refine ⟨by simp only [hres], ?_, ?_, ?_, by simp only [hres], ?_⟩
  · simp only [hres]
    rw [hw, List.nil_append]
  · simp only [hres]
    rw [hcmds]
    apply List.map_congr_left
    intro c hcmem
    exact applyRename_mem ot.name (jsTrim editTagName) commands c hids hcmem
  · intro c _ hcc
    exact substTag_resolves ot.name (jsTrim editTagName) c hcc hchanged
  · simp only [hres]
    rw [hs, hw, List.nil_append, List.foldl_cons,
      applyEWrites_ok _ _ hws, hs1]

/-- Tags for the C6 witness scenario. -/
def c6tags : List Tag := [⟨1, "Admin", "#ef4444"⟩, ⟨2, "Spawning", "#8b5cf6"⟩]

/-- Commands for the C6 witness scenario: two reference "Admin", one does
not. -/
def c6cmds : List Command :=
  [⟨1, "A", "a", "", ["Admin"], none, false⟩,
   ⟨2, "B", "b", "", ["Admin", "Spawning"], none, false⟩,
   ⟨3, "C", "c", "", ["Spawning"], none, false⟩]

/-- Witness for C6: renaming "Admin" to "Ops" with two referencing
commands writes the tag then exactly those two commands, both now carrying
"Ops" and not "Admin"; the third command is untouched. -/
theorem c6_witness :
    (handleSaveTag c6tags c6cmds ("Ops") "#ef4444" 1 []).err = none ∧
    (handleSaveTag c6tags c6cmds ("Ops") "#ef4444" 1 []).writes =
      ("dsttag:" ++ toString 1, Entity.etag ⟨1, jsTrim ("Ops"), "#ef4444"⟩) ::
        (c6cmds.filter (fun c => c.tags.contains ("Admin"))).map
          (fun c => ("dst:" ++ toString c.id,
            Entity.ecmd (substTag ("Admin") (jsTrim ("Ops")) c))) ∧
    (handleSaveTag c6tags c6cmds ("Ops") "#ef4444" 1 []).commands =
      c6cmds.map (fun c =>
        if c.tags.contains ("Admin") then substTag ("Admin") (jsTrim ("Ops")) c else c) ∧
    (∀ c ∈ c6cmds, c.tags.contains ("Admin") = true →
      jsTrim ("Ops") ∈ (substTag ("Admin") (jsTrim ("Ops")) c).tags ∧
      "Admin" ∉ (substTag ("Admin") (jsTrim ("Ops")) c).tags) ∧
    (handleSaveTag c6tags c6cmds ("Ops") "#ef4444" 1 []).tags =
      c6tags.map (fun t =>
        if t.id = 1 then (⟨1, jsTrim ("Ops"), "#ef4444"⟩ : Tag) else t) ∧
    (handleSaveTag c6tags c6cmds ("Ops") "#ef4444" 1 []).store =
      (handleSaveTag c6tags c6cmds ("Ops") "#ef4444" 1 []).writes.foldl
        (fun s kv => assocSet ("dst_app_" ++ kv.1) kv.2 s) [] :=
  c6_rename_cascade c6tags c6cmds ("Ops") "#ef4444" 1 [] ⟨1, "Admin", "#ef4444"⟩
    (by decide) (by decide) (by decide) (by decide) (by decide) (by decide) (by decide)
